import Mathlib

/-!
Shallow embedding of the PDF-to-question extraction pipeline
(`src/aiJson2Questions.py`, `src/main.py`, `src/splitJson.py`).

Python strings are modelled as `List Char`; Python dicts holding question
records are modelled as structures whose optional fields use `Option`
(`none` = key absent or JSON null, as relevant per field).  Fields of the
records that no claim mentions and that no modelled step reads or writes
(timestamps, title, subject, module, subModule, tags, isActive, stats,
difficulty, the MongoDB `_id` injection) are omitted: the default-value
injection loop (aiJson2Questions.py lines 391-395) touches none of the
modelled fields, and the timestamp handling (lines 316-331, 416-450)
touches only `createdAt`/`updatedAt`.
-/

namespace Pdf2Q

/-! ## Python string primitives over `List Char` -/

/-- The ASCII whitespace set stripped by Python `str.strip()`. -/
def pySpace (c : Char) : Bool :=
  c = ' ' || c = '\t' || c = '\n' || c = '\r' || c = '\x0b' || c = '\x0c'

/-- Python `str.lstrip()`. -/
def lstrip (s : List Char) : List Char := s.dropWhile pySpace

/-- Python `str.rstrip()`. -/
def rstrip (s : List Char) : List Char := (s.reverse.dropWhile pySpace).reverse

/-- Python `str.strip()`. -/
def pystrip (s : List Char) : List Char := rstrip (lstrip s)

/-- Python `str.startswith(pre)`. -/
def pyStartsWith : (pre s : List Char) → Bool
  | [], _ => true
  | _ :: _, [] => false
  | a :: ps, b :: ss => a = b && pyStartsWith ps ss

/-- Python `str.endswith(suf)`. -/
def pyEndsWith (suf s : List Char) : Bool := pyStartsWith suf.reverse s.reverse

/-- Python `sub in s` substring containment. -/
def containsSub (sub : List Char) : (s : List Char) → Bool
  | [] => sub.isEmpty
  | c :: t => pyStartsWith sub (c :: t) || containsSub sub t

/-- Python `s.split(chr(10))`: split on newline, no merging of separators. -/
def splitNL : List Char → List (List Char)
  | [] => [[]]
  | c :: cs =>
    match splitNL cs with
    | [] => [[]]
    | l :: ls => if c = '\n' then [] :: l :: ls else (c :: l) :: ls

/-- Python `chr(10).join(ls)`. -/
def joinNL : List (List Char) → List Char
  | [] => []
  | [l] => l
  | l :: ls => l ++ '\n' :: joinNL ls

/-- Python string `<=` (lexicographic on code points). -/
def strLe : List Char → List Char → Bool
  | [], _ => true
  | _ :: _, [] => false
  | a :: as, b :: bs => if a < b then true else if a = b then strLe as bs else false

/-! ## Response Sanitizer (aiJson2Questions.py lines 232-256) -/

/-- The markdown code-fence marker. -/
def fenceS : List Char := ("```").toList

/-- The fence marker with the json language tag. -/
def fenceJsonS : List Char := ("```json").toList

/-- The bare language tag line. -/
def jsonTagS : List Char := ("json").toList

/-- Lines 235-238: strip one leading fence, with or without the `json` tag. -/
def dropFences (s : List Char) : List Char :=
  if pyStartsWith fenceJsonS s then s.drop 7
  else if pyStartsWith fenceS s then s.drop 3
  else s

/-- Lines 240-241: strip one trailing fence (`content[:-3]`). -/
def dropEndFence (s : List Char) : List Char :=
  if pyEndsWith fenceS s then s.take (s.length - 3) else s

/-- Line 250: a stripped line survives if non-empty, not a fence line, not `json`. -/
def lineKept (l : List Char) : Bool :=
  !l.isEmpty && !pyStartsWith fenceS l && !(l = jsonTagS : Bool)

/-- Lines 246-254: strip every line, drop fence/tag/blank lines, rejoin;
keep the input unchanged when no line survives (`if cleaned_lines:`). -/
def sanitizeLines (content : List Char) : List Char :=
  let cleaned := ((splitNL content).map pystrip).filter lineKept
  if cleaned.isEmpty then content else joinNL cleaned

/-- Lines 232-256: the full response sanitizer. -/
def sanitize (raw : List Char) : List Char :=
  pystrip (sanitizeLines (pystrip (dropEndFence (dropFences (pystrip raw)))))

/-! ## Question Normalizer (aiJson2Questions.py lines 297-470) -/

/-- A JSON value as far as the `correctAnswer` handling inspects it
(`isinstance(..., list)` / `isinstance(..., str)` checks, lines 334-338). -/
inductive PyVal where
  | pstr (s : List Char)
  | plist (xs : List PyVal)
  | pnone
  | pint (n : Int)
  | pbool (b : Bool)

/-- `True` exactly on Python lists. -/
def isPlist : PyVal → Bool
  | .plist _ => true
  | _ => false

/-- A raw option dict `{key?, content?}` as produced by the LLM. -/
structure RawOpt where
  key : Option (List Char)
  content : Option (List Char)

/-- A raw question dict, restricted to the fields the modelled steps
read or write.  `content?` is `none` when the `content` key is absent. -/
structure RawQ where
  content? : Option (List Char)
  qtype : Option (List Char)
  options : Option (List RawOpt)
  correctAnswer : Option PyVal
  explanation : Option (List Char)

/-- `config.QUESTION_TYPE_MAP` (config.py lines 42-52). -/
def typeMapPairs : List (List Char × List Char) :=
  [(("单选").toList, ("single").toList),
   (("单选题").toList, ("single").toList),
   (("多选").toList, ("multiple").toList),
   (("多选题").toList, ("multiple").toList),
   (("判断").toList, ("true_false").toList),
   (("判断题").toList, ("true_false").toList),
   (("填空题").toList, ("fill_in_the_blank").toList),
   (("简答题").toList, ("short_answer").toList),
   (("计算题").toList, ("calculation").toList)]

/-- Association-list lookup (Python `dict.get`). -/
def lookupStr (k : List Char) : List (List Char × List Char) → Option (List Char)
  | [] => Option.none
  | (a, b) :: rest => if k = a then some b else lookupStr k rest

/-- `config.get_question_type` (config.py lines 119-121): strip, look up,
default to `unknown`. -/
def mapTypeToEnglish (s : List Char) : List Char :=
  (lookupStr (pystrip s) typeMapPairs).getD (("unknown").toList)

/-- Lines 334-338: wrap a bare-string `correctAnswer` in a list, replace any
other present non-list value by the empty list, leave a present list and an
absent key untouched. -/
def coerceCA : Option PyVal → Option PyVal
  | Option.none => Option.none
  | some v =>
    match v with
    | .plist xs => some (.plist xs)
    | .pstr s => some (.plist [.pstr s])
    | _ => some (.plist [])

/-- The `correctAnswer` value seen by the validated model: an absent key is
filled by `MongoQuestion.correctAnswer`'s `default_factory=list`
(aiJson2Questions.py line 48). -/
def caAfterCoercion (a : Option PyVal) : PyVal :=
  match coerceCA a with
  | some v => v
  | Option.none => .plist []

/-- Line 374: `len(q_data.get(..., []))` after coercion; a present value is
a list at this point (coercion output), so the other cases are unreachable. -/
def caLen : Option PyVal → Nat
  | some (.plist xs) => xs.length
  | some _ => 0
  | Option.none => 0

/-- The judgment-question marker (line 351). -/
def jmarkS : List Char := ("【判断】").toList

/-- The multiple-choice marker (line 370). -/
def mmarkS : List Char := ("【多选】").toList

/-- The `correct` option label (line 358). -/
def correctS : List Char := ("正确").toList

/-- The `incorrect` option label (line 359). -/
def wrongS : List Char := ("错误").toList

/-- Lines 358-359: does some option's content contain the given label? -/
def hasLabel (lab : List Char) (l : List RawOpt) : Bool :=
  l.any (fun o => containsSub lab (o.content.getD []))

/-- Lines 350-367: on a judgment question, replace absent/empty options by
`[]`, then rebuild the standard correct/incorrect pair unless both labels
are already present. -/
def judgOptions (c : List Char) (opts : Option (List RawOpt)) : Option (List RawOpt) :=
  if containsSub jmarkS c then
    let cur : List RawOpt :=
      match opts with
      | Option.none => []
      | some l => l
    if hasLabel correctS cur && hasLabel wrongS cur then some cur
    else some [⟨some (("A").toList), some correctS⟩, ⟨some (("B").toList), some wrongS⟩]
  else opts

/-- Python truthiness of the options value (`if not q_data.get("options")`). -/
def optsTruthy : Option (List RawOpt) → Bool
  | Option.none => false
  | some l => !l.isEmpty

/-- Lines 369-383: content-marker / answer-cardinality type inference. -/
def inferType (c : List Char) (caNum : Nat) (opts : Option (List RawOpt)) : List Char :=
  if containsSub mmarkS c then ("multiple").toList
  else if 1 < caNum then ("multiple").toList
  else if optsTruthy opts then ("single").toList
  else ("short_answer").toList

/-- A validated output record (`MongoQuestion.model_dump` projected onto the
modelled fields; `exclude_none=True` is reflected by the `Option` types). -/
structure QOut where
  content : List Char
  qtype : List Char
  options : Option (List (List Char × List Char))
  correctAnswer : List (List Char)
  explanation : Option (List Char)
  order : Nat
deriving DecidableEq

/-- `PyVal` to `str`, as pydantic's `str` field validation accepts it. -/
def toStrVal : PyVal → Option (List Char)
  | .pstr s => some s
  | _ => Option.none

/-- Pydantic validation of `correctAnswer: List[str]` (line 48): an absent
key takes the `default_factory=list` default, a list must contain only
strings, a non-list value is rejected. -/
def caValidate : Option PyVal → Option (List (List Char))
  | Option.none => some []
  | some (.plist xs) => xs.mapM toStrVal
  | some _ => Option.none

/-- Pydantic validation of one `MongoOption` (lines 34-36): both `key` and
`content` are required. -/
def optValid (o : RawOpt) : Bool := o.key.isSome && o.content.isSome

/-- Pydantic validation of `options: Optional[List[MongoOption]]` (line 47). -/
def optsValidate : Option (List RawOpt) → Option (Option (List (List Char × List Char)))
  | Option.none => some Option.none
  | some l =>
    if l.all optValid then some (some (l.map (fun o => (o.key.getD [], o.content.getD []))))
    else Option.none

/-- Lines 386-387: options are cleared for answer-text question types. -/
def clearedOptions (ty : List Char) (opts : Option (List RawOpt)) : Option (List RawOpt) :=
  if ty = ("fill_in_the_blank").toList ∨ ty = ("short_answer").toList then Option.none
  else opts

/-- Lines 314-405 for one raw question whose `content` is `c`: coerce
`correctAnswer`, fix judgment options, infer the final type, clear options
for `fill_in_the_blank`/`short_answer`, then validate; `none` models the
`except ValidationError: continue` rejection path (lines 400-402).  The
vocabulary mapping of line 342 (`q.qtype.map mapTypeToEnglish`) is always
overwritten by the inference because `content` is present, so it does not
appear in the result. -/
def processQ (c : List Char) (q : RawQ) : Option QOut :=
  match caValidate (coerceCA q.correctAnswer),
        optsValidate (clearedOptions
          (inferType c (caLen (coerceCA q.correctAnswer)) (judgOptions c q.options))
          (judgOptions c q.options)) with
  | some caF, some optsF =>
    some { content := c,
           qtype := inferType c (caLen (coerceCA q.correctAnswer)) (judgOptions c q.options),
           options := optsF, correctAnswer := caF,
           explanation := q.explanation, order := 0 }
  | _, _ => Option.none

/-- Lines 297-310: the basic-structure filter keeps dicts with a present,
truthy `content`. -/
def validRaw (q : RawQ) : Bool :=
  match q.content? with
  | some c => !c.isEmpty
  | Option.none => false

/-- Line 465: `q_dict["order"] = i`. -/
def setOrder (q : QOut) (i : Nat) : QOut := {q with order := i}

/-- Lines 408-467: the output loop assigns `order` by enumeration index. -/
def assignOrders : Nat → List QOut → List QOut
  | _, [] => []
  | i, q :: rest => setOrder q i :: assignOrders (i + 1) rest

/-- `transform_raw_text_to_mongo_questions` from the parsed `questions_data`
on: structure filter (lines 297-310), per-question processing (314-405),
order assignment (408-467). -/
def transformQuestions (raws : List RawQ) : List QOut :=
  assignOrders 0 ((raws.filter validRaw).filterMap (fun r => processQ (r.content?.getD []) r))

/-! ## Final Filter (main.py lines 213-226) -/

/-- Line 216: `question_type in ["single", "multiple"]`. -/
def acceptedType (t : List Char) : Bool :=
  (t = ("single").toList : Bool) || (t = ("multiple").toList : Bool)

/-- Lines 222-223: backfill an absent/None `explanation` with the empty string. -/
def backfillExplanation (q : QOut) : QOut :=
  {q with explanation := some (q.explanation.getD [])}

/-- Lines 213-226: drop records whose type is outside the accepted set,
backfill `explanation` on survivors; `order` is not touched. -/
def finalFilter (qs : List QOut) : List QOut :=
  qs.filterMap (fun q => if acceptedType q.qtype then some (backfillExplanation q) else Option.none)

/-- `convert_json_to_questions` for one small (unchunked) file whose AI call
returned `raws`: transform then final filter (main.py lines 178-241). -/
def convertSmallFile (raws : List RawQ) : List QOut :=
  finalFilter (transformQuestions raws)

/-! ## Chunk Splitter (splitJson.py lines 31-90) -/

/-- Line 74: `data[i*cap : min((i+1)*cap, total)]`. -/
def chunkSlice (data : List α) (cap i : Nat) : List α :=
  (data.drop (i * cap)).take (min ((i + 1) * cap) data.length - i * cap)

/-- Lines 71-87: the chunk loop, with the `if not chunk: break` guard. -/
def splitLoop (data : List α) (cap : Nat) : Nat → Nat → List (List α)
  | _, 0 => []
  | i, Nat.succ k =>
    let chunk := chunkSlice data cap i
    if chunk.isEmpty then [] else chunk :: splitLoop data cap (i + 1) k

/-- Line 61: `math.ceil(total / max_items_per_chunk)`. -/
def ceilDiv (t c : Nat) : Nat := (t + c - 1) / c

/-- `split_json_with_folder` restricted to its chunk contents (lines 55-90):
an empty document yields no chunks (lines 56-58). -/
def splitJsonWithFolder (data : List α) (cap : Nat) : List (List α) :=
  if data.length = 0 then [] else splitLoop data cap 0 (ceilDiv data.length cap)

/-! ## Extraction Client retry loop (aiJson2Questions.py lines 169-229) -/

/-- What one attempt's API call does: succeed, fail at transport level
(`httpx.ReadError`/`ConnectError`/`TimeoutException`; `isRead` marks a
`ReadError`), fail with an HTTP status error, or raise something else. -/
inductive ApiOutcome where
  | ok (content : List Char)
  | netErr (isRead : Bool)
  | httpErr (code : Nat)
  | otherErr
deriving DecidableEq

/-- How the retry loop ends: a response, a re-raised exception (tagged with
the attempt that produced it), or loop exhaustion with no content (the
`generated_content is None` path, lines 227-229). -/
inductive RunResult where
  | success (content : List Char)
  | raised (attempt : Nat) (o : ApiOutcome)
  | noContent
deriving DecidableEq

/-- Lines 169-224 from attempt `i` on: the result together with the list of
backoff delays slept, in order.  `b` is `config.RETRY_DELAY`, `netExtra` is
`config.NETWORK_ERROR_DELAY`; the 429 penalty is the literal `5` of
line 211. -/
def retryFrom (b netExtra : ℚ) (maxR : Nat) (script : Nat → ApiOutcome) (i : Nat) :
    RunResult × List ℚ :=
  if _h : i < maxR then
    match script i with
    | .ok c => (.success c, [])
    | .netErr isRead =>
      if i < maxR - 1 then
        let w := if isRead then b * 2 ^ i + netExtra else b * 2 ^ i
        let r := retryFrom b netExtra maxR script (i + 1)
        (r.1, w :: r.2)
      else (.raised i (.netErr isRead), [])
    | .httpErr code =>
      if code = 429 then
        if i < maxR - 1 then
          let r := retryFrom b netExtra maxR script (i + 1)
          (r.1, (b * 2 ^ i + 5) :: r.2)
        else (.raised i (.httpErr code), [])
      else (.raised i (.httpErr code), [])
    | .otherErr =>
      if i < maxR - 1 then
        let r := retryFrom b netExtra maxR script (i + 1)
        (r.1, b :: r.2)
      else (.raised i .otherErr, [])
  else (.noContent, [])
termination_by maxR - i

/-- The whole loop, `for attempt in range(max_retries)`. -/
def runRetries (b netExtra : ℚ) (maxR : Nat) (script : Nat → ApiOutcome) :
    RunResult × List ℚ :=
  retryFrom b netExtra maxR script 0

/-! ## Chunked processing and merge (main.py lines 373-497, splitJson.py line 80) -/

/-- Decimal digit rendering with explicit fuel (Python `str` of a
non-negative int); fuel `n + 1` always suffices. -/
def decDigitsAux : Nat → Nat → List Char
  | 0, _ => []
  | Nat.succ fuel, n =>
    if n < 10 then [Nat.digitChar n]
    else decDigitsAux fuel (n / 10) ++ [Nat.digitChar (n % 10)]

/-- Python `str(n)` for a natural number. -/
def decDigits (n : Nat) : List Char := decDigitsAux (n + 1) n

/-- Python `"%04d" % n` / f-string `{n:04d}`: left-pad to width 4. -/
def pad4 (n : Nat) : List Char :=
  List.replicate (4 - (decDigits n).length) ('0') ++ decDigits n

/-- The result-file name for the chunk at 1-based position `k`
(splitJson.py line 80 builds `chunk_{k:04d}.json`; main.py line 406 turns
its stem into `chunk_{k:04d}_result.json`). -/
def resultName (k : Nat) : List Char :=
  ("chunk_").toList ++ pad4 k ++ ("_result.json").toList

/-- Ordering of result entries by file name, as `sorted(result_files)`
compares the path strings (main.py line 478). -/
def fileLe (a b : Nat × List α) : Prop := strLe (resultName a.1) (resultName b.1) = true

instance : DecidableRel (fileLe (α := α)) :=
  fun _ _ => inferInstanceAs (Decidable (_ = true))

/-- Ordering of result entries by chunk index. -/
def idxLe (a b : Nat × List α) : Prop := a.1 ≤ b.1

instance : DecidableRel (idxLe (α := α)) :=
  fun _ _ => inferInstanceAs (Decidable (_ ≤ _))

/-- Lines 474-488: sort the result files by name (Python `sorted` is a
stable ascending sort, modelled by `List.insertionSort`) and concatenate
their contents. -/
def mergeResults (entries : List (Nat × List α)) : List α :=
  ((List.insertionSort fileLe entries).map Prod.snd).flatten

/-- What extracting one chunk did: raise, or return a question list. -/
inductive ChunkOutcome (α : Type) where
  | raises
  | returns (qs : List α)

/-- The questions a chunk contributes: a raising chunk contributes none. -/
def contribution : ChunkOutcome α → List α
  | .raises => []
  | .returns qs => qs

/-- Lines 404-471: the per-chunk loop over chunks numbered from `k`; a chunk
whose extraction raises is caught and skipped (lines 443-460), and a chunk
returning no questions writes no result file (lines 424-441).  An empty
chunk file (lines 415-417) behaves like `returns []`. -/
def chunkLoop : List (ChunkOutcome α) → Nat → List (Nat × List α)
  | [], _ => []
  | .raises :: rest, k => chunkLoop rest (k + 1)
  | .returns qs :: rest, k =>
    if qs.isEmpty then chunkLoop rest (k + 1) else (k, qs) :: chunkLoop rest (k + 1)

/-- `_process_with_chunking` given the per-chunk outcomes, chunk files being
numbered from 1 (splitJson.py line 80). -/
def processWithChunking (outs : List (ChunkOutcome α)) : List α :=
  mergeResults (chunkLoop outs 1)

/-! ## Concrete sample records (used by witnesses and counterexamples) -/

/-- A well-formed option dict. -/
def exOptA : RawOpt := ⟨some (("A").toList), some (("对").toList)⟩

/-- A plain question with one option: its inferred type is `single`. -/
def exSingle1 : RawQ :=
  { content? := some (("1.甲是?").toList), qtype := Option.none,
    options := some [exOptA], correctAnswer := some (.pstr (("A").toList)),
    explanation := Option.none }

/-- A question with no options: its inferred type is `short_answer`. -/
def exShort2 : RawQ :=
  { content? := some (("2.乙是?").toList), qtype := Option.none,
    options := Option.none, correctAnswer := some (.pstr (("A").toList)),
    explanation := Option.none }

/-- Another `single` question. -/
def exSingle3 : RawQ :=
  { content? := some (("3.丙是?").toList), qtype := Option.none,
    options := some [exOptA], correctAnswer := some (.pstr (("A").toList)),
    explanation := Option.none }

/-- A batch in which the middle record is dropped by the Final Filter. -/
def exRawsC1 : List RawQ := [exSingle1, exShort2, exSingle3]

/-- A judgment-marker question without options. -/
def exJudgeQ : RawQ :=
  { content? := some (("4.【判断】丁对.").toList), qtype := Option.none,
    options := Option.none, correctAnswer := some (.pstr (("A").toList)),
    explanation := Option.none }

/-- Lexicographic order on digit sequences (used to state that comparing
zero-padded names agrees with comparing the numbers they render). -/
def lexLeNat : List Nat → List Nat → Prop
  | [], _ => True
  | _ :: _, [] => False
  | a :: as, b :: bs => a < b ∨ (a = b ∧ lexLeNat as bs)

/-- A concrete attempt script: attempt 0 is rate-limited, attempt 1 hits a
server error, later attempts would succeed. -/
def exScript : Nat → ApiOutcome
  | 0 => .httpErr 429
  | 1 => .httpErr 500
  | _ => .ok []

/-! ## Helper lemmas: normalizer -/

theorem processQ_qtype {c : List Char} {q : RawQ} {out : QOut}
    (h : processQ c q = some out) :
    out.qtype = inferType c (caLen (coerceCA q.correctAnswer)) (judgOptions c q.options) := by
  unfold processQ at h
  split at h
  · cases h
    rfl
  · cases h

theorem inferType_three (c : List Char) (n : Nat) (o : Option (List RawOpt)) :
    inferType c n o = ("multiple").toList ∨ inferType c n o = ("single").toList ∨
      inferType c n o = ("short_answer").toList := by
  unfold inferType
  split_ifs
  · exact Or.inl rfl
  · exact Or.inl rfl
  · exact Or.inr (Or.inl rfl)
  · exact Or.inr (Or.inr rfl)

theorem mem_assignOrders {q : QOut} :
    ∀ {i : Nat} {l : List QOut}, q ∈ assignOrders i l → ∃ p ∈ l, ∃ j, q = setOrder p j := by
  intro i l
  induction l generalizing i with
  | nil => intro h; cases h
  | cons p rest ih =>
    intro h
    rcases List.mem_cons.mp h with h | h
    · exact ⟨p, List.mem_cons_self _ _, i, h⟩
    · rcases ih h with ⟨p', hp', j, hj⟩
      exact ⟨p', List.mem_cons_of_mem _ hp', j, hj⟩

theorem assignOrders_map_order :
    ∀ (i : Nat) (l : List QOut), (assignOrders i l).map QOut.order = List.range' i l.length := by
  intro i l
  induction l generalizing i with
  | nil => rfl
  | cons p rest ih => simp [assignOrders, setOrder, List.range'_succ, ih]

theorem assignOrders_length (i : Nat) (l : List QOut) :
    (assignOrders i l).length = l.length := by
  have := congrArg List.length (assignOrders_map_order i l)
  simpa using this

theorem finalFilter_map_order (qs : List QOut) :
    (finalFilter qs).map QOut.order =
      (qs.filter (fun q => acceptedType q.qtype)).map QOut.order := by
  induction qs with
  | nil => rfl
  | cons q rest ih =>
    by_cases h : acceptedType q.qtype
    · simp [finalFilter, List.filterMap_cons, h, List.filter_cons, backfillExplanation] at ih ⊢
      exact ih
    · simp [finalFilter, List.filterMap_cons, h, List.filter_cons] at ih ⊢
      exact ih

/-! ## Claim theorems -/

/-- C4: the `correctAnswer` coercion (with the model's list default for an
absent key) always yields a list; a bare string is wrapped, a list is kept,
`None`, numbers, booleans and absence all give the empty list. -/
theorem claim_C4 :
    (∀ s, caAfterCoercion (some (.pstr s)) = .plist [.pstr s]) ∧
    (∀ xs, caAfterCoercion (some (.plist xs)) = .plist xs) ∧
    caAfterCoercion (some .pnone) = .plist [] ∧
    (∀ n, caAfterCoercion (some (.pint n)) = .plist []) ∧
    (∀ b, caAfterCoercion (some (.pbool b)) = .plist []) ∧
    caAfterCoercion Option.none = .plist [] ∧
    (∀ a, isPlist (caAfterCoercion a) = true) := by
  refine ⟨fun s => rfl, fun xs => rfl, rfl, fun n => rfl, fun b => rfl, rfl, fun a => ?_⟩
  rcases a with _ | v
  · rfl
  · cases v <;> rfl

/-- C5: every record emitted by the per-question normalizer gets its final
type from the content-marker / answer-count rule: the multiple-choice
marker forces `multiple`; otherwise more than one coerced answer forces
`multiple`; otherwise `single`, downgraded to `short_answer` when the
(post-judgment-fix) options are absent or empty. -/
theorem claim_C5 (q : RawQ) (c : List Char) (out : QOut)
    (_hc : q.content? = some c) (_hne : c ≠ [])
    (hout : processQ c q = some out) :
    out.qtype =
      (if containsSub mmarkS c then ("multiple").toList
       else if 1 < caLen (coerceCA q.correctAnswer) then ("multiple").toList
       else if optsTruthy (judgOptions c q.options) then ("single").toList
       else ("short_answer").toList) := by
  rw [processQ_qtype hout]
  rfl

/-- C5 witness: a concrete marker-free one-answer question with an option
comes out as `single`. -/
theorem claim_C5_witness :
    ∃ out, processQ (("1.甲是?").toList) exSingle1 = some out ∧
      out.qtype =
        (if containsSub mmarkS (("1.甲是?").toList) then ("multiple").toList
         else if 1 < caLen (coerceCA exSingle1.correctAnswer) then ("multiple").toList
         else if optsTruthy (judgOptions (("1.甲是?").toList) exSingle1.options) then
           ("single").toList
         else ("short_answer").toList) := by
  refine ⟨_, rfl, claim_C5 exSingle1 (("1.甲是?").toList) _ rfl (by decide) rfl⟩

/-- C10: every question the transform emits has type `single`, `multiple`
or `short_answer` (the vocabulary-mapped types never survive, because the
content-driven inference always runs), so the Final Filter can only ever
drop `short_answer` records. -/
theorem claim_C10 (raws : List RawQ) (q : QOut) (hq : q ∈ transformQuestions raws) :
    (q.qtype = ("single").toList ∨ q.qtype = ("multiple").toList ∨
      q.qtype = ("short_answer").toList) ∧
    (acceptedType q.qtype = false → q.qtype = ("short_answer").toList) := by
  obtain ⟨p, hp, j, rfl⟩ := mem_assignOrders hq
  obtain ⟨r, -, hr⟩ := List.mem_filterMap.mp hp
  have hty : (setOrder p j).qtype = p.qtype := rfl
  rw [hty, processQ_qtype hr]
  rcases inferType_three (r.content?.getD []) (caLen (coerceCA r.correctAnswer))
      (judgOptions (r.content?.getD []) r.options) with h | h | h <;> rw [h]
  · exact ⟨Or.inr (Or.inl rfl), fun hacc => by cases hacc⟩
  · exact ⟨Or.inl rfl, fun hacc => by cases hacc⟩
  · exact ⟨Or.inr (Or.inr rfl), fun _ => rfl⟩

/-- C10 witness: the short-answer record of the sample batch is emitted,
has type `short_answer`, and is exactly the kind the filter drops. -/
theorem claim_C10_witness :
    ∃ q ∈ transformQuestions exRawsC1,
      ((q.qtype = ("single").toList ∨ q.qtype = ("multiple").toList ∨
        q.qtype = ("short_answer").toList) ∧
       (acceptedType q.qtype = false → q.qtype = ("short_answer").toList)) := by
  refine ⟨(transformQuestions exRawsC1).get ⟨1, by decide⟩, by decide, ?_⟩
  exact claim_C10 exRawsC1 _ (List.get_mem _ _ _)

/-- C6: a judgment-marker question with absent or empty options gets the
synthesized correct/incorrect option pair, resolves to `single` when there
is at most one coerced answer and no multiple-choice marker, and its type
is accepted by the Final Filter. -/
theorem claim_C6 (q : RawQ) (c : List Char) (_hc : q.content? = some c)
    (hj : containsSub jmarkS c = true) (hm : containsSub mmarkS c = false)
    (hopts : q.options = Option.none ∨ q.options = some [])
    (hca : caLen (coerceCA q.correctAnswer) ≤ 1)
    (hcaV : (caValidate (coerceCA q.correctAnswer)).isSome = true) :
    ∃ out, processQ c q = some out ∧
      out.options = some [((("A").toList), correctS), ((("B").toList), wrongS)] ∧
      out.qtype = ("single").toList ∧
      acceptedType out.qtype = true := by
  obtain ⟨caF, hcaF⟩ := Option.isSome_iff_exists.mp hcaV
  have hjud : judgOptions c q.options =
      some [⟨some (("A").toList), some correctS⟩, ⟨some (("B").toList), some wrongS⟩] := by
    rcases hopts with h | h <;> simp [judgOptions, hj, h, hasLabel]
  have h1 : ¬ (1 < caLen (coerceCA q.correctAnswer)) := by omega
  have hty : inferType c (caLen (coerceCA q.correctAnswer)) (judgOptions c q.options)
      = ("single").toList := by
    rw [hjud]
    unfold inferType
    rw [hm]
    simp [h1, optsTruthy]
  unfold processQ
  rw [hty, hjud, hcaF]
  refine ⟨{ content := c, qtype := ("single").toList,
            options := some [((("A").toList), correctS), ((("B").toList), wrongS)],
            correctAnswer := caF, explanation := q.explanation, order := 0 },
          ?_, rfl, rfl, rfl⟩
  rfl

/-- C6 witness: the concrete judgment question gives exactly the pair and
type `single`. -/
theorem claim_C6_witness :
    ∃ out, processQ (("4.【判断】丁对.").toList) exJudgeQ = some out ∧
      out.options = some [((("A").toList), correctS), ((("B").toList), wrongS)] ∧
      out.qtype = ("single").toList ∧
      acceptedType out.qtype = true :=
  claim_C6 exJudgeQ (("4.【判断】丁对.").toList) rfl (by decide) (by decide)
    (Or.inl rfl) (by decide) (by decide)

/-- C1 counterexample: on a batch whose middle record is a `short_answer`
question, the final filtered output has `order` values `[0, 2]`, not the
dense `[0, 1]` the claim requires. -/
theorem claim_C1_counterexample :
    ¬ ((convertSmallFile exRawsC1).map QOut.order =
        List.range (convertSmallFile exRawsC1).length) := by decide

/-- C1 amended: `order` equals the record's 0-based index in the pre-filter
validated list of its transform call, and the Final Filter preserves those
values unchanged on its survivors (it never reassigns them), so the output
`order` values are the pre-filter indices of the survivors — dense `0..K-1`
only when nothing was dropped. -/
theorem claim_C1_amended (raws : List RawQ) :
    (transformQuestions raws).map QOut.order =
      List.range (transformQuestions raws).length ∧
    (convertSmallFile raws).map QOut.order =
      ((transformQuestions raws).filter (fun q => acceptedType q.qtype)).map QOut.order := by
  constructor
  · unfold transformQuestions
    rw [assignOrders_map_order, assignOrders_length]
    exact (List.range_eq_range' _).symm
  · show (finalFilter (transformQuestions raws)).map QOut.order = _
    exact finalFilter_map_order _

/-! ## Helper lemmas: chunk splitter -/

theorem chunkSlice_eq (data : List α) (cap i : Nat) :
    chunkSlice data cap i = (data.drop (i * cap)).take cap := by
  unfold chunkSlice
  have e : (i + 1) * cap = i * cap + cap := by ring
  rcases le_or_lt ((i + 1) * cap) data.length with h | h
  · rw [Nat.min_eq_left h, e, Nat.add_sub_cancel_left]
  · rw [Nat.min_eq_right h.le]
    have hlen : (data.drop (i * cap)).length = data.length - i * cap := List.length_drop _ _
    have h1 : (data.drop (i * cap)).length ≤ data.length - i * cap := le_of_eq hlen
    have h2 : (data.drop (i * cap)).length ≤ cap := by rw [hlen]; omega
    rw [List.take_of_length_le h1, List.take_of_length_le h2]


theorem splitLoop_flatten (data : List α) (cap : Nat) (hc : 0 < cap) :
    ∀ (k i : Nat), data.length ≤ i * cap + k * cap →
      (splitLoop data cap i k).flatten = data.drop (i * cap) := by
  intro k
  induction k with
  | zero =>
    intro i h
    simp only [splitLoop, List.flatten_nil]
    rw [List.drop_eq_nil_of_le (by simpa using h)]
  | succ k ih =>
    intro i h
    unfold splitLoop
    rw [chunkSlice_eq]
    by_cases hemp : ((data.drop (i * cap)).take cap).isEmpty
    · rw [if_pos hemp]
      have hnil : (data.drop (i * cap)).take cap = [] := List.isEmpty_iff.mp hemp
      rcases List.take_eq_nil_iff.mp hnil with h0 | h0
      · omega
      · rw [h0]
        rfl
    · rw [if_neg hemp]
      have harith : (i + 1) * cap + k * cap = i * cap + (k + 1) * cap := by ring
      have h' : data.length ≤ (i + 1) * cap + k * cap := by rw [harith]; exact h
      have hmul : (i + 1) * cap = i * cap + cap := by ring
      rw [List.flatten_cons, ih (i + 1) h', hmul, ← List.drop_drop,
        List.take_append_drop]

theorem splitLoop_length (data : List α) (cap : Nat) (hc : 0 < cap) :
    ∀ (k i : Nat), (i + k) * cap < data.length + cap →
      (splitLoop data cap i k).length = k := by
  intro k
  induction k with
  | zero => intro i _; rfl
  | succ k ih =>
    intro i h
    have hstart : i * cap < data.length := by
      have e1 : (i + (k + 1)) * cap = i * cap + k * cap + cap := by ring
      rw [e1] at h
      have : 0 ≤ k * cap := Nat.zero_le _
      omega
    unfold splitLoop
    rw [chunkSlice_eq]
    have hne : ¬ ((data.drop (i * cap)).take cap).isEmpty := by
      intro hemp
      rcases List.take_eq_nil_iff.mp (List.isEmpty_iff.mp hemp) with h0 | h0
      · omega
      · have := congrArg List.length h0
        rw [List.length_drop] at this
        simp at this
        omega
    rw [if_neg hne, List.length_cons, ih (i + 1)]
    have e2 : (i + 1 + k) * cap = (i + (k + 1)) * cap := by ring
    rw [e2]
    exact h

theorem splitLoop_mem (data : List α) (cap : Nat) :
    ∀ (k i : Nat) (ch : List α), ch ∈ splitLoop data cap i k →
      ch.length ≤ cap ∧ ch ≠ [] := by
  intro k
  induction k with
  | zero => intro i ch h; cases h
  | succ k ih =>
    intro i ch h
    unfold splitLoop at h
    by_cases hemp : (chunkSlice data cap i).isEmpty
    · rw [if_pos hemp] at h
      cases h
    · rw [if_neg hemp] at h
      rcases List.mem_cons.mp h with h | h
      · subst h
        refine ⟨?_, fun hnil => hemp (by rw [hnil]; rfl)⟩
        rw [chunkSlice_eq]
        exact List.length_take_le _ _
      · exact ih _ _ h

/-- C3: with a positive cap, the splitter produces exactly `ceil(T/cap)`
chunks of at most `cap` items whose in-order concatenation is the original
sequence, none of them empty, and an empty document yields no chunks. -/
theorem claim_C3 (data : List α) (cap : Nat) (hc : 0 < cap) :
    (splitJsonWithFolder data cap).length = ceilDiv data.length cap ∧
    (∀ ch ∈ splitJsonWithFolder data cap, ch.length ≤ cap) ∧
    (splitJsonWithFolder data cap).flatten = data ∧
    (∀ ch ∈ splitJsonWithFolder data cap, ch ≠ []) ∧
    (data = [] → splitJsonWithFolder data cap = []) := by
  by_cases hz : data.length = 0
  · have hnil : data = [] := List.length_eq_zero.mp hz
    subst hnil
    refine ⟨?_, ?_, rfl, ?_, fun _ => rfl⟩
    · show (0 : Nat) = ceilDiv 0 cap
      unfold ceilDiv
      have : cap - 1 < cap := by omega
      simp [Nat.div_eq_of_lt this]
    · intro ch h; cases h
    · intro ch h; cases h
  · have hpos : 0 < data.length := Nat.pos_of_ne_zero hz
    have hceil : ceilDiv data.length cap = (data.length - 1) / cap + 1 := by
      unfold ceilDiv
      have e : data.length + cap - 1 = data.length - 1 + cap := by omega
      rw [e, Nat.add_div_right _ hc]
    have hlow : ((data.length - 1) / cap) * cap ≤ data.length - 1 :=
      Nat.div_mul_le_self _ _
    have hhigh : data.length - 1 < ((data.length - 1) / cap) * cap + cap := by
      have hmod := Nat.div_add_mod (data.length - 1) cap
      have hmlt : (data.length - 1) % cap < cap := Nat.mod_lt _ hc
      have e : cap * ((data.length - 1) / cap) = ((data.length - 1) / cap) * cap := by ring
      omega
    have hunfold : splitJsonWithFolder data cap =
        splitLoop data cap 0 (ceilDiv data.length cap) := by
      unfold splitJsonWithFolder
      rw [if_neg hz]
    refine ⟨?_, ?_, ?_, ?_, fun hn => by rw [hn] at hpos; cases hpos⟩
    · rw [hunfold]
      rw [splitLoop_length data cap hc]
      rw [hceil]
      have e : (0 + ((data.length - 1) / cap + 1)) * cap
          = ((data.length - 1) / cap) * cap + cap := by ring
      omega
    · intro ch h
      rw [hunfold] at h
      exact (splitLoop_mem data cap _ _ ch h).1
    · rw [hunfold]
      rw [splitLoop_flatten data cap hc]
      · simp
      · rw [hceil]
        have e : 0 * cap + ((data.length - 1) / cap + 1) * cap
            = ((data.length - 1) / cap) * cap + cap := by ring

        omega
    · intro ch h
      rw [hunfold] at h
      exact (splitLoop_mem data cap _ _ ch h).2

/-- C3 witness: a five-item document with cap 2 splits into three chunks. -/
theorem claim_C3_witness :
    (splitJsonWithFolder ([0, 1, 2, 3, 4] : List Nat) 2).length =
        ceilDiv ([0, 1, 2, 3, 4] : List Nat).length 2 ∧
      (∀ ch ∈ splitJsonWithFolder ([0, 1, 2, 3, 4] : List Nat) 2, ch.length ≤ 2) ∧
      (splitJsonWithFolder ([0, 1, 2, 3, 4] : List Nat) 2).flatten = [0, 1, 2, 3, 4] ∧
      (∀ ch ∈ splitJsonWithFolder ([0, 1, 2, 3, 4] : List Nat) 2, ch ≠ []) ∧
      (([0, 1, 2, 3, 4] : List Nat) = [] →
        splitJsonWithFolder ([0, 1, 2, 3, 4] : List Nat) 2 = []) :=
  claim_C3 [0, 1, 2, 3, 4] 2 (by decide)

/-! ## Helper lemmas: strip and the sanitizer -/

theorem lstrip_length_le (s : List Char) : (lstrip s).length ≤ s.length :=
  (List.dropWhile_suffix pySpace).sublist.length_le

theorem rstrip_length_le (s : List Char) : (rstrip s).length ≤ s.length := by
  unfold rstrip
  rw [List.length_reverse]
  calc (s.reverse.dropWhile pySpace).length
      ≤ s.reverse.length := (List.dropWhile_suffix pySpace).sublist.length_le
    _ = s.length := List.length_reverse s

theorem pystrip_length_le (s : List Char) : (pystrip s).length ≤ s.length :=
  le_trans (rstrip_length_le _) (lstrip_length_le _)

theorem lstrip_eq_self_of_eq (s : List Char) (h : pystrip s = s) : lstrip s = s := by
  have hsuf : lstrip s <:+ s := List.dropWhile_suffix pySpace
  apply hsuf.eq_of_length_le
  have h1 : s.length = (pystrip s).length := by rw [h]
  have h2 : (pystrip s).length ≤ (lstrip s).length := rstrip_length_le _
  omega

theorem rstrip_eq_self_of_eq (s : List Char) (h : pystrip s = s) : rstrip s = s := by
  have hl : lstrip s = s := lstrip_eq_self_of_eq s h
  have h2 : pystrip s = rstrip s := by unfold pystrip; rw [hl]
  rw [← h2, h]

theorem pySpace_head_false (c : Char) (t : List Char) (h : lstrip (c :: t) = c :: t) :
    pySpace c = false := by
  cases hcc : pySpace c
  · rfl
  · exfalso
    unfold lstrip at h
    rw [List.dropWhile_cons, if_pos hcc] at h
    have h1 := congrArg List.length h
    have hle : (t.dropWhile pySpace).length ≤ t.length :=
      (List.dropWhile_suffix pySpace).sublist.length_le
    simp at h1
    omega

theorem lstrip_cons_false (c : Char) (t : List Char) (h : pySpace c = false) :
    lstrip (c :: t) = c :: t := by
  unfold lstrip
  rw [List.dropWhile_cons, if_neg (by simp [h])]

theorem rstrip_rev_drop (s : List Char) (h : rstrip s = s) :
    s.reverse.dropWhile pySpace = s.reverse := by
  have h2 := congrArg List.reverse h
  unfold rstrip at h2
  rwa [List.reverse_reverse] at h2

theorem rstrip_append (a b : List Char) (hb : b ≠ []) (hrs : rstrip b = b) :
    rstrip (a ++ b) = a ++ b := by
  have hdw := rstrip_rev_drop b hrs
  rcases hrev : b.reverse with _ | ⟨c, t⟩
  · exact absurd (by simpa using congrArg List.reverse hrev) hb
  · rw [hrev] at hdw
    have hc : pySpace c = false := pySpace_head_false c t hdw
    have hstep : List.dropWhile pySpace (b.reverse ++ a.reverse) = b.reverse ++ a.reverse := by
      rw [hrev, List.cons_append, List.dropWhile_cons, if_neg (by simp [hc])]
    unfold rstrip
    rw [List.reverse_append, hstep, ← List.reverse_append, List.reverse_reverse]

theorem dropWhile_head_false (p : Char → Bool) :
    ∀ (s : List Char), s.dropWhile p = [] ∨ ∃ c t, s.dropWhile p = c :: t ∧ p c = false := by
  intro s
  induction s with
  | nil => exact Or.inl rfl
  | cons a t ih =>
    rw [List.dropWhile_cons]
    by_cases h : p a = true
    · rw [if_pos h]
      exact ih
    · rw [if_neg h]
      exact Or.inr ⟨a, t, rfl, by simpa using h⟩

theorem rstrip_idem (s : List Char) : rstrip (rstrip s) = rstrip s := by
  unfold rstrip
  rw [List.reverse_reverse]
  congr 1
  rcases dropWhile_head_false pySpace s.reverse with h | ⟨c, t, h, hc⟩
  · rw [h]
    rfl
  · rw [h]
    exact lstrip_cons_false c t hc

theorem rstrip_prefix_self (l : List Char) : rstrip l <+: l := by
  have h : (l.reverse.dropWhile pySpace).reverse <+: l.reverse.reverse :=
    List.reverse_prefix.mpr (List.dropWhile_suffix pySpace)
  rwa [List.reverse_reverse] at h

theorem lstrip_pystrip (s : List Char) : lstrip (pystrip s) = pystrip s := by
  rcases dropWhile_head_false pySpace s with h | ⟨c, t, h, hc⟩
  · have h0 : lstrip s = [] := h
    unfold pystrip
    rw [h0]
    rfl
  · have h0 : lstrip s = c :: t := h
    unfold pystrip
    rw [h0]
    obtain ⟨r, hr⟩ := rstrip_prefix_self (c :: t)
    rcases hrs : rstrip (c :: t) with _ | ⟨d, u⟩
    · rfl
    · rw [hrs] at hr
      have hdc : d = c ∧ u ++ r = t := by simpa using hr
      rw [hdc.1]
      exact lstrip_cons_false c u hc

theorem pystrip_idem (s : List Char) : pystrip (pystrip s) = pystrip s := by
  show rstrip (lstrip (pystrip s)) = pystrip s
  rw [lstrip_pystrip]
  show rstrip (rstrip (lstrip s)) = pystrip s
  rw [rstrip_idem]
  rfl

theorem stripped_head (l : List Char) (h : pystrip l = l) (hne : l ≠ []) :
    ∃ c t, l = c :: t ∧ pySpace c = false := by
  rcases l with _ | ⟨c, t⟩
  · exact absurd rfl hne
  · exact ⟨c, t, rfl, pySpace_head_false c t (lstrip_eq_self_of_eq _ h)⟩

theorem mem_pystrip (a : Char) (l : List Char) (h : a ∈ pystrip l) : a ∈ l := by
  have h1 : a ∈ ((lstrip l).reverse.dropWhile pySpace).reverse := h
  have h2 : a ∈ (lstrip l).reverse.dropWhile pySpace := List.mem_reverse.mp h1
  have h3 : a ∈ (lstrip l).reverse := (List.dropWhile_suffix pySpace).mem h2
  have h4 : a ∈ lstrip l := List.mem_reverse.mp h3
  exact (List.dropWhile_suffix pySpace).mem h4

theorem splitNL_cons (c : Char) (cs : List Char) :
    splitNL (c :: cs) =
      (match splitNL cs with
       | [] => [[]]
       | l :: ls => if c = '\n' then [] :: l :: ls else (c :: l) :: ls) := rfl

theorem splitNL_ne_nil (s : List Char) : splitNL s ≠ [] := by
  induction s with
  | nil => simp [splitNL]
  | cons c cs ih =>
    rw [splitNL_cons]
    rcases h : splitNL cs with _ | ⟨l, ls⟩
    · exact absurd h ih
    · by_cases hc : c = '\n' <;> simp [hc]

theorem splitNL_no_newline : ∀ (s : List Char) (l : List Char), l ∈ splitNL s → '\n' ∉ l := by
  intro s
  induction s with
  | nil =>
    intro l hl
    have : l = [] := by simpa [splitNL] using hl
    subst this
    simp
  | cons c cs ih =>
    intro l hl
    rw [splitNL_cons] at hl
    rcases h : splitNL cs with _ | ⟨m, ms⟩
    · exact absurd h (splitNL_ne_nil cs)
    · rw [h] at hl
      have hl' : l ∈ (if c = '\n' then [] :: m :: ms else (c :: m) :: ms) := hl
      by_cases hc : c = '\n'
      · rw [if_pos hc] at hl'
        rcases List.mem_cons.mp hl' with rfl | hl
        · simp
        · exact ih l (h ▸ hl)
      · rw [if_neg hc] at hl'
        rcases List.mem_cons.mp hl' with rfl | hl
        · intro hmem
          rcases List.mem_cons.mp hmem with h1 | h1
          · exact hc h1.symm
          · exact ih m (h ▸ List.mem_cons_self m ms) h1
        · exact ih l (h ▸ List.mem_cons_of_mem m hl)

theorem splitNL_append_nl : ∀ (l w : List Char), '\n' ∉ l →
    splitNL (l ++ '\n' :: w) = l :: splitNL w := by
  intro l
  induction l with
  | nil =>
    intro w _
    rw [List.nil_append, splitNL_cons]
    rcases h : splitNL w with _ | ⟨m, ms⟩
    · exact absurd h (splitNL_ne_nil w)
    · simp
  | cons c l' ih =>
    intro w hnl
    have hc : c ≠ '\n' := fun hh => hnl (hh ▸ List.mem_cons_self _ _)
    rw [List.cons_append, splitNL_cons, ih w (fun hh => hnl (List.mem_cons_of_mem _ hh))]
    simp [hc]

theorem splitNL_eq_single : ∀ (l : List Char), '\n' ∉ l → splitNL l = [l] := by
  intro l
  induction l with
  | nil => intro _; rfl
  | cons c t ih =>
    intro h
    have hc : c ≠ '\n' := fun hh => h (hh ▸ List.mem_cons_self _ _)
    rw [splitNL_cons, ih (fun hm => h (List.mem_cons_of_mem _ hm))]
    simp [hc]

theorem splitNL_joinNL : ∀ (L : List (List Char)), L ≠ [] → (∀ l ∈ L, '\n' ∉ l) →
    splitNL (joinNL L) = L := by
  intro L
  induction L with
  | nil => intro h _; exact absurd rfl h
  | cons l ls ih =>
    intro _ hall
    cases ls with
    | nil => exact splitNL_eq_single l (hall l (List.mem_cons_self _ _))
    | cons m ms =>
      show splitNL (l ++ '\n' :: joinNL (m :: ms)) = _
      rw [splitNL_append_nl l _ (hall l (List.mem_cons_self _ _)),
        ih (by simp) (fun a ha => hall a (List.mem_cons_of_mem _ ha))]

theorem joinNL_head (c : Char) (t : List Char) (L : List (List Char)) :
    ∃ w, joinNL ((c :: t) :: L) = c :: w := by
  cases L with
  | nil => exact ⟨t, rfl⟩
  | cons l ls => exact ⟨t ++ '\n' :: joinNL (l :: ls), rfl⟩

theorem joinNL_split_last : ∀ (L : List (List Char)), L ≠ [] →
    ∃ init lk, lk ∈ L ∧ joinNL L = init ++ lk := by
  intro L
  induction L with
  | nil => intro h; exact absurd rfl h
  | cons l ls ih =>
    intro _
    cases ls with
    | nil => exact ⟨[], l, List.mem_cons_self _ _, rfl⟩
    | cons m ms =>
      obtain ⟨init, lk, hmem, heq⟩ := ih (by simp)
      refine ⟨l ++ '\n' :: init, lk, List.mem_cons_of_mem _ hmem, ?_⟩
      show l ++ '\n' :: joinNL (m :: ms) = (l ++ '\n' :: init) ++ lk
      rw [heq]
      simp

theorem pystrip_joinNL (L : List (List Char)) (hne : L ≠ [])
    (hall : ∀ l ∈ L, l ≠ [] ∧ pystrip l = l) :
    pystrip (joinNL L) = joinNL L := by
  obtain ⟨l0, ls, rfl⟩ : ∃ l0 ls, L = l0 :: ls := by
    cases L with
    | nil => exact absurd rfl hne
    | cons a b => exact ⟨a, b, rfl⟩
  obtain ⟨hne0, hs0⟩ := hall l0 (List.mem_cons_self _ _)
  obtain ⟨c, t, rfl, hc⟩ := stripped_head l0 hs0 hne0
  obtain ⟨w, hw⟩ := joinNL_head c t ls
  obtain ⟨init, lk, hmem, heq⟩ := joinNL_split_last ((c :: t) :: ls) (by simp)
  obtain ⟨hnek, hsk⟩ := hall lk hmem
  show rstrip (lstrip (joinNL ((c :: t) :: ls))) = joinNL ((c :: t) :: ls)
  have hl : lstrip (joinNL ((c :: t) :: ls)) = joinNL ((c :: t) :: ls) := by
    rw [hw]
    exact lstrip_cons_false c w hc
  rw [hl, heq]
  exact rstrip_append init lk hnek (rstrip_eq_self_of_eq lk hsk)

theorem map_eq_self_of (f : List Char → List Char) :
    ∀ (l : List (List Char)), (∀ a ∈ l, f a = a) → l.map f = l := by
  intro l
  induction l with
  | nil => intro _; rfl
  | cons a t ih =>
    intro h
    rw [List.map_cons, h a (List.mem_cons_self _ _),
      ih (fun b hb => h b (List.mem_cons_of_mem _ hb))]

theorem pyStartsWith_append_left : ∀ (p q s : List Char),
    pyStartsWith (p ++ q) s = true → pyStartsWith p s = true := by
  intro p
  induction p with
  | nil => intro q s _; rfl
  | cons a ps ih =>
    intro q s h
    cases s with
    | nil => cases h
    | cons b ss =>
      rw [List.cons_append] at h
      unfold pyStartsWith at h ⊢
      rcases (Bool.and_eq_true _ _).mp h with ⟨ha, hb⟩
      rw [ha, ih q ss hb]
      rfl

theorem dropFences_eq_self (y : List Char) (h : pyStartsWith fenceS y = false) :
    dropFences y = y := by
  have hsplit : fenceJsonS = fenceS ++ jsonTagS := by decide
  have hj : pyStartsWith fenceJsonS y = false := by
    cases hh : pyStartsWith fenceJsonS y
    · rfl
    · rw [hsplit] at hh
      rw [pyStartsWith_append_left fenceS jsonTagS y hh] at h
      cases h
  unfold dropFences
  simp [hj, h]

theorem dropEndFence_eq_self (y : List Char) (h : pyEndsWith fenceS y = false) :
    dropEndFence y = y := by
  unfold dropEndFence
  simp [h]

/-! ## Claim theorems: sanitizer -/

/-- C2 counterexample: the sanitizer is not idempotent.  On the input
`abc` followed by six backticks, one pass removes only one trailing fence
(giving `abc` + three backticks), and a second pass removes the remaining
fence. -/
theorem claim_C2_counterexample :
    ¬ (sanitize (sanitize (("abc``````").toList)) = sanitize (("abc``````").toList)) := by
  decide

/-- C2 amended: the sanitizer is a no-op on its own output whenever that
output does not itself start or end with a code-fence marker; in
particular sanitizing already-clean (fence-free, trimmed) JSON text is a
no-op.  Full idempotence fails (see the counterexample): a sanitized
output can still carry a fence at its edge. -/
theorem claim_C2_amended (x : List Char)
    (h1 : pyStartsWith fenceS (sanitize x) = false)
    (h2 : pyEndsWith fenceS (sanitize x) = false) :
    sanitize (sanitize x) = sanitize x := by
  have hys : pystrip (sanitize x) = sanitize x := pystrip_idem _
  have hyz : sanitize x =
      pystrip (sanitizeLines (pystrip (dropEndFence (dropFences (pystrip x))))) := rfl
  have hzz : pystrip (pystrip (dropEndFence (dropFences (pystrip x))))
      = pystrip (dropEndFence (dropFences (pystrip x))) := pystrip_idem _
  have hsl : sanitizeLines (sanitize x) = sanitize x := by
    rcases hcl : ((splitNL (pystrip (dropEndFence (dropFences (pystrip x))))).map
        pystrip).filter lineKept with _ | ⟨l, ls⟩
    · have hsz : sanitizeLines (pystrip (dropEndFence (dropFences (pystrip x))))
          = pystrip (dropEndFence (dropFences (pystrip x))) := by
        simp only [sanitizeLines]
        rw [hcl]
        rfl
      have hy : sanitize x = pystrip (dropEndFence (dropFences (pystrip x))) := by
        rw [hyz, hsz, hzz]
      simp only [sanitizeLines]
      rw [hy, hcl]
      rfl
    · have hkeep : ∀ m ∈ (l :: ls), m ≠ [] ∧ pystrip m = m ∧ lineKept m = true ∧ '\n' ∉ m := by
        intro m hm
        rw [← hcl] at hm
        have hf := List.mem_filter.mp hm
        obtain ⟨m0, hm0, rfl⟩ := List.mem_map.mp hf.1
        refine ⟨?_, pystrip_idem m0, hf.2, ?_⟩
        · intro hnil
          have hk := hf.2
          rw [hnil] at hk
          exact absurd hk (by decide)
        · intro hmem
          exact splitNL_no_newline _ m0 hm0 (mem_pystrip _ _ hmem)
      have hstrip : pystrip (joinNL (l :: ls)) = joinNL (l :: ls) :=
        pystrip_joinNL (l :: ls) (by simp)
          (fun m hm => ⟨(hkeep m hm).1, (hkeep m hm).2.1⟩)
      have hslz : sanitizeLines (pystrip (dropEndFence (dropFences (pystrip x))))
          = joinNL (l :: ls) := by
        simp only [sanitizeLines]
        rw [hcl]
        rfl
      have hy : sanitize x = joinNL (l :: ls) := by
        rw [hyz, hslz, hstrip]
      rw [hy]
      simp only [sanitizeLines]
      rw [splitNL_joinNL (l :: ls) (by simp) (fun m hm => (hkeep m hm).2.2.2),
        map_eq_self_of pystrip (l :: ls) (fun m hm => (hkeep m hm).2.1),
        List.filter_eq_self.mpr (fun m hm => (hkeep m hm).2.2.1)]
      rfl
  calc sanitize (sanitize x)
      = pystrip (sanitizeLines (pystrip (dropEndFence (dropFences (pystrip (sanitize x)))))) :=
        rfl
    _ = sanitize x := by
        rw [hys, dropFences_eq_self _ h1, dropEndFence_eq_self _ h2, hys, hsl, hys]

/-- C2 amended witness: a fenced JSON payload sanitizes to plain `[1]`,
which has no fence at either edge, and re-sanitizing leaves it unchanged. -/
theorem claim_C2_witness :
    sanitize (sanitize (("```json\n[1]\n```").toList)) =
      sanitize (("```json\n[1]\n```").toList) :=
  claim_C2_amended (("```json\n[1]\n```").toList) (by decide) (by decide)

/-! ## Claim theorems: retry loop -/

/-- C8: inside the retry loop, a non-429 HTTP status error re-raises
immediately on the attempt that produced it; a 429 before the final
attempt sleeps `base * 2 ^ attempt + 5` and continues with the next
attempt; a 429 on the final attempt re-raises. -/
theorem claim_C8 (b netExtra : ℚ) (maxR : Nat) (script : Nat → ApiOutcome) (i code : Nat)
    (hi : i < maxR) (hcode : script i = .httpErr code) :
    (code ≠ 429 →
      retryFrom b netExtra maxR script i = (.raised i (.httpErr code), [])) ∧
    (code = 429 → i < maxR - 1 →
      retryFrom b netExtra maxR script i =
        ((retryFrom b netExtra maxR script (i + 1)).1,
          (b * 2 ^ i + 5) :: (retryFrom b netExtra maxR script (i + 1)).2)) ∧
    (code = 429 → ¬ i < maxR - 1 →
      retryFrom b netExtra maxR script i = (.raised i (.httpErr code), [])) := by
  refine ⟨fun hne => ?_, fun h429 hlt => ?_, fun h429 hge => ?_⟩ <;>
    rw [retryFrom] <;> simp only [hi, dif_pos, hcode]
  · rw [if_neg hne]
  · rw [if_pos h429, if_pos hlt]
  · rw [if_pos h429, if_neg hge]

/-- C8 witness: on the sample script, attempt 1's 500 re-raises at once,
and attempt 0's 429 backs off by `5 * 2 ^ 0 + 5` and retries. -/
theorem claim_C8_witness :
    retryFrom 5 15 7 exScript 1 = (.raised 1 (.httpErr 500), []) ∧
    retryFrom 5 15 7 exScript 0 =
      ((retryFrom 5 15 7 exScript 1).1,
        ((5 : ℚ) * 2 ^ 0 + 5) :: (retryFrom 5 15 7 exScript 1).2) :=
  ⟨(claim_C8 5 15 7 exScript 1 500 (by decide) rfl).1 (by decide),
   (claim_C8 5 15 7 exScript 0 429 (by decide) rfl).2.1 rfl (by decide)⟩

/-! ## Helper lemmas: zero-padded names and the chunk merge -/

theorem decDigitsAux_fuel : ∀ (n f g : Nat), n < f → n < g →
    decDigitsAux f n = decDigitsAux g n := by
  intro n
  induction n using Nat.strong_induction_on with
  | _ n ih =>
    intro f g hf hg
    rcases f with _ | f
    · omega
    rcases g with _ | g
    · omega
    by_cases h10 : n < 10
    · simp [decDigitsAux, h10]
    · have hdiv : n / 10 < n := Nat.div_lt_self (by omega) (by omega)
      simp only [decDigitsAux, h10, if_false]
      rw [ih (n / 10) hdiv f (n / 10 + 1) (by omega) (by omega),
        ih (n / 10) hdiv g (n / 10 + 1) (by omega) (by omega)]

theorem decDigits_lt10 (n : Nat) (h : n < 10) : decDigits n = [Nat.digitChar n] := by
  simp [decDigits, decDigitsAux, h]

theorem decDigitsAux_succ (f n : Nat) :
    decDigitsAux (f + 1) n =
      (if n < 10 then [Nat.digitChar n]
       else decDigitsAux f (n / 10) ++ [Nat.digitChar (n % 10)]) := rfl

theorem decDigits_ge10 (n : Nat) (h : 10 ≤ n) :
    decDigits n = decDigits (n / 10) ++ [Nat.digitChar (n % 10)] := by
  have h10 : ¬ n < 10 := by omega
  have hdiv : n / 10 < n := Nat.div_lt_self (by omega) (by omega)
  show decDigitsAux (n + 1) n = _
  rw [decDigitsAux_succ, if_neg h10,
    decDigitsAux_fuel (n / 10) n (n / 10 + 1) hdiv (by omega)]
  rfl

theorem pad4_shape (n : Nat) (h : n < 10000) :
    pad4 n = [Nat.digitChar (n / 1000), Nat.digitChar (n / 100 % 10),
      Nat.digitChar (n / 10 % 10), Nat.digitChar (n % 10)] := by
  by_cases h1 : n < 10
  · have hd : decDigits n = [Nat.digitChar n] := decDigits_lt10 n h1
    unfold pad4
    rw [hd]
    have e1 : n / 1000 = 0 := by omega
    have e2 : n / 100 % 10 = 0 := by omega
    have e3 : n / 10 % 10 = 0 := by omega
    have e4 : n % 10 = n := by omega
    rw [e1, e2, e3, e4]
    rfl
  · by_cases h2 : n < 100
    · have hd : decDigits n = [Nat.digitChar (n / 10), Nat.digitChar (n % 10)] := by
        rw [decDigits_ge10 n (by omega), decDigits_lt10 (n / 10) (by omega)]
        rfl
      unfold pad4
      rw [hd]
      have e1 : n / 1000 = 0 := by omega
      have e2 : n / 100 % 10 = 0 := by omega
      have e3 : n / 10 % 10 = n / 10 := by omega
      rw [e1, e2, e3]
      rfl
    · by_cases h3 : n < 1000
      · have hd : decDigits n = [Nat.digitChar (n / 100), Nat.digitChar (n / 10 % 10),
            Nat.digitChar (n % 10)] := by
          rw [decDigits_ge10 n (by omega), decDigits_ge10 (n / 10) (by omega),
            decDigits_lt10 (n / 10 / 10) (by omega)]
          have e : n / 10 / 10 = n / 100 := by omega
          have e' : n / 10 % 10 = n / 10 % 10 := rfl
          rw [e]
          rfl
        unfold pad4
        rw [hd]
        have e1 : n / 1000 = 0 := by omega
        have e2 : n / 100 % 10 = n / 100 := by omega
        rw [e1, e2]
        rfl
      · have hd : decDigits n = [Nat.digitChar (n / 1000), Nat.digitChar (n / 100 % 10),
            Nat.digitChar (n / 10 % 10), Nat.digitChar (n % 10)] := by
          rw [decDigits_ge10 n (by omega), decDigits_ge10 (n / 10) (by omega),
            decDigits_ge10 (n / 10 / 10) (by omega),
            decDigits_lt10 (n / 10 / 10 / 10) (by omega)]
          have e1 : n / 10 / 10 / 10 = n / 1000 := by omega
          have e2 : n / 10 / 10 % 10 = n / 100 % 10 := by omega
          rw [e1, e2]
          rfl
        unfold pad4
        rw [hd]
        rfl

theorem digitChar_lt_iff : ∀ a < 10, ∀ b < 10,
    (Nat.digitChar a < Nat.digitChar b ↔ a < b) := by decide

theorem digitChar_inj : ∀ a < 10, ∀ b < 10,
    (Nat.digitChar a = Nat.digitChar b ↔ a = b) := by decide

theorem strLe_refl : ∀ (s : List Char), strLe s s = true := by
  intro s
  induction s with
  | nil => rfl
  | cons c t ih => simp [strLe, lt_irrefl, ih]

theorem strLe_append_same : ∀ (p a b : List Char),
    strLe (p ++ a) (p ++ b) = strLe a b := by
  intro p
  induction p with
  | nil => intro a b; rfl
  | cons c t ih => intro a b; simp [strLe, lt_irrefl, ih]

theorem strLe_digits : ∀ (ds es : List Nat), (∀ d ∈ ds, d < 10) → (∀ e ∈ es, e < 10) →
    ((strLe (ds.map Nat.digitChar) (es.map Nat.digitChar) = true) ↔ lexLeNat ds es) := by
  intro ds
  induction ds with
  | nil => intro es _ _; simp [strLe, lexLeNat]
  | cons a as ih =>
    intro es hds hes
    cases es with
    | nil => simp [strLe, lexLeNat]
    | cons b bs =>
      have ha : a < 10 := hds a (List.mem_cons_self _ _)
      have hb : b < 10 := hes b (List.mem_cons_self _ _)
      simp only [List.map_cons, strLe]
      rcases Nat.lt_trichotomy a b with h | h | h
      · rw [if_pos ((digitChar_lt_iff a ha b hb).mpr h)]
        simp [lexLeNat, h]
      · subst h
        rw [if_neg (lt_irrefl _), if_pos rfl,
          ih bs (fun d hd => hds d (List.mem_cons_of_mem _ hd))
            (fun e he => hes e (List.mem_cons_of_mem _ he))]
        simp [lexLeNat]
      · have hnl : ¬ (Nat.digitChar a < Nat.digitChar b) := by
          intro hcon
          have := (digitChar_lt_iff a ha b hb).mp hcon
          omega
        have hne : ¬ (Nat.digitChar a = Nat.digitChar b) := by
          intro hcon
          have := (digitChar_inj a ha b hb).mp hcon
          omega
        rw [if_neg hnl, if_neg hne]
        unfold lexLeNat
        constructor
        · intro hcon; cases hcon
        · rintro (hcon | ⟨hcon, -⟩) <;> omega

theorem pad4_le_iff (i j : Nat) (hi : i < 10000) (hj : j < 10000) :
    ((strLe (pad4 i) (pad4 j)) = true) ↔ i ≤ j := by
  rw [pad4_shape i hi, pad4_shape j hj]
  have h := strLe_digits [i / 1000, i / 100 % 10, i / 10 % 10, i % 10]
    [j / 1000, j / 100 % 10, j / 10 % 10, j % 10]
    (by intro d hd; simp at hd; rcases hd with rfl | rfl | rfl | rfl <;> omega)
    (by intro e he; simp at he; rcases he with rfl | rfl | rfl | rfl <;> omega)
  simp only [List.map_cons, List.map_nil] at h
  rw [h]
  simp only [lexLeNat]
  have e1 : i / 100 / 10 = i / 1000 := by omega
  have e2 : j / 100 / 10 = j / 1000 := by omega
  have e3 : i / 10 / 10 = i / 100 := by omega
  have e4 : j / 10 / 10 = j / 100 := by omega
  constructor
  · rintro (hc | ⟨f1, hc | ⟨f2, hc | ⟨f3, hc | ⟨f4, -⟩⟩⟩⟩) <;> omega
  · intro hle
    by_cases c1 : i / 1000 < j / 1000
    · exact Or.inl c1
    · refine Or.inr ⟨by omega, ?_⟩
      by_cases c2 : i / 100 % 10 < j / 100 % 10
      · exact Or.inl c2
      · refine Or.inr ⟨by omega, ?_⟩
        by_cases c3 : i / 10 % 10 < j / 10 % 10
        · exact Or.inl c3
        · refine Or.inr ⟨by omega, ?_⟩
          by_cases c4 : i % 10 < j % 10
          · exact Or.inl c4
          · exact Or.inr ⟨by omega, trivial⟩

theorem pad4_length (n : Nat) (h : n < 10000) : (pad4 n).length = 4 := by
  rw [pad4_shape n h]
  rfl

theorem strLe_cons (a b : Char) (as bs : List Char) :
    strLe (a :: as) (b :: bs) =
      (if a < b then true else if a = b then strLe as bs else false) := rfl

theorem strLe_append_eq_len : ∀ (a b s t : List Char), a.length = b.length →
    strLe (a ++ s) (b ++ t) = if a = b then strLe s t else strLe a b := by
  intro a
  induction a with
  | nil =>
    intro b s t hl
    cases b with
    | nil => simp
    | cons y ys => cases hl
  | cons x xs ih =>
    intro b s t hl
    cases b with
    | nil => cases hl
    | cons y ys =>
      have hl' : xs.length = ys.length := by simpa using hl
      have key : strLe ((x :: xs) ++ s) ((y :: ys) ++ t) =
          (if x < y then true else if x = y then strLe (xs ++ s) (ys ++ t) else false) := rfl
      rw [key]
      rcases lt_trichotomy x y with h | h | h
      · have hlne : (x :: xs : List Char) ≠ y :: ys := by
          intro hcon
          rw [List.cons.injEq] at hcon
          exact absurd hcon.1 (ne_of_lt h)
        rw [if_pos h, if_neg hlne, strLe_cons, if_pos h]
      · subst h
        rw [if_neg (lt_irrefl _), if_pos rfl, ih ys s t hl']
        by_cases hxs : xs = ys
        · rw [if_pos hxs, if_pos (by rw [hxs])]
        · rw [if_neg hxs,
            if_neg (by intro hcon; rw [List.cons.injEq] at hcon; exact hxs hcon.2),
            strLe_cons, if_neg (lt_irrefl _), if_pos rfl]
      · have hnl : ¬ (x < y) := lt_asymm h
        have hne : ¬ (x = y) := fun hcon => (ne_of_lt h) hcon.symm
        have hlne : (x :: xs : List Char) ≠ y :: ys := by
          intro hcon
          rw [List.cons.injEq] at hcon
          exact hne hcon.1
        rw [if_neg hnl, if_neg hne, if_neg hlne, strLe_cons, if_neg hnl, if_neg hne]

theorem resultName_le_iff (i j : Nat) (hi : i < 10000) (hj : j < 10000) :
    ((strLe (resultName i) (resultName j)) = true) ↔ i ≤ j := by
  unfold resultName
  rw [List.append_assoc, List.append_assoc, strLe_append_same,
    strLe_append_eq_len _ _ _ _ (by rw [pad4_length i hi, pad4_length j hj])]
  by_cases hpq : pad4 i = pad4 j
  · have hij : i = j := by
      have h1 : i ≤ j := (pad4_le_iff i j hi hj).mp (by rw [hpq]; exact strLe_refl _)
      have h2 : j ≤ i := (pad4_le_iff j i hj hi).mp (by rw [hpq]; exact strLe_refl _)
      omega
    rw [if_pos hpq]
    simp [strLe_refl, hij]
  · rw [if_neg hpq]
    exact pad4_le_iff i j hi hj

theorem orderedInsert_congr {α : Type} {r s : α → α → Prop} [DecidableRel r] [DecidableRel s]
    (a : α) : ∀ (l : List α), (∀ b ∈ l, (r a b ↔ s a b)) →
    List.orderedInsert r a l = List.orderedInsert s a l := by
  intro l
  induction l with
  | nil => intro _; rfl
  | cons b bs ih =>
    intro h
    simp only [List.orderedInsert]
    by_cases hr : r a b
    · rw [if_pos hr, if_pos ((h b (List.mem_cons_self _ _)).mp hr)]
    · rw [if_neg hr, if_neg (fun hs => hr ((h b (List.mem_cons_self _ _)).mpr hs)),
        ih (fun c hc => h c (List.mem_cons_of_mem _ hc))]

theorem insertionSort_congr {α : Type} {r s : α → α → Prop} [DecidableRel r] [DecidableRel s] :
    ∀ (l : List α), (∀ a ∈ l, ∀ b ∈ l, (r a b ↔ s a b)) →
    List.insertionSort r l = List.insertionSort s l := by
  intro l
  induction l with
  | nil => intro _; rfl
  | cons a as ih =>
    intro h
    simp only [List.insertionSort]
    rw [ih (fun x hx y hy => h x (List.mem_cons_of_mem _ hx) y (List.mem_cons_of_mem _ hy))]
    apply orderedInsert_congr
    intro b hb
    have hbmem : b ∈ as := (List.perm_insertionSort s as).mem_iff.mp hb
    exact h a (List.mem_cons_self _ _) b (List.mem_cons_of_mem _ hbmem)

theorem chunkLoop_mem_idx {α : Type} : ∀ (outs : List (ChunkOutcome α)) (k : Nat)
    (e : Nat × List α), e ∈ chunkLoop outs k → k ≤ e.1 ∧ e.1 < k + outs.length := by
  intro outs
  induction outs with
  | nil => intro k e h; cases h
  | cons o rest ih =>
    intro k e h
    cases o with
    | raises =>
      have := ih (k + 1) e h
      simp only [List.length_cons]
      omega
    | returns qs =>
      by_cases hq : qs.isEmpty
      · rw [chunkLoop, if_pos hq] at h
        have := ih (k + 1) e h
        simp only [List.length_cons]
        omega
      · rw [chunkLoop, if_neg hq] at h
        rcases List.mem_cons.mp h with rfl | h
        · simp only [List.length_cons]
          omega
        · have := ih (k + 1) e h
          simp only [List.length_cons]
          omega

theorem chunkLoop_sorted {α : Type} (outs : List (ChunkOutcome α)) :
    ∀ (k : Nat), k + outs.length ≤ 10000 →
    List.Sorted (fileLe (α := α)) (chunkLoop outs k) := by
  induction outs with
  | nil => intro k _; exact List.sorted_nil
  | cons o rest ih =>
    intro k hbound
    have hblen : k + (o :: rest).length = k + rest.length + 1 := by
      simp only [List.length_cons]
      omega
    have hrest : List.Sorted (fileLe (α := α)) (chunkLoop rest (k + 1)) :=
      ih (k + 1) (by omega)
    cases o with
    | raises => exact hrest
    | returns qs =>
      by_cases hq : qs.isEmpty
      · rw [chunkLoop, if_pos hq]
        exact hrest
      · rw [chunkLoop, if_neg hq, List.sorted_cons]
        refine ⟨?_, hrest⟩
        intro e he
        have hidx := chunkLoop_mem_idx rest (k + 1) e he
        show (strLe (resultName k) (resultName e.1)) = true
        rw [resultName_le_iff k e.1 (by omega) (by omega)]
        omega

theorem chunkLoop_flatten {α : Type} : ∀ (outs : List (ChunkOutcome α)) (k : Nat),
    ((chunkLoop outs k).map Prod.snd).flatten = (outs.map contribution).flatten := by
  intro outs
  induction outs with
  | nil => intro k; rfl
  | cons o rest ih =>
    intro k
    cases o with
    | raises => simp [chunkLoop, contribution, ih]
    | returns qs =>
      by_cases hq : qs.isEmpty
      · have hnil : qs = [] := List.isEmpty_iff.mp hq
        subst hnil
        simp [chunkLoop, contribution, ih]
      · simp [chunkLoop, hq, contribution, ih]

/-! ## Claim theorems: chunk orchestration and merge -/

/-- C9: in the chunked path, a chunk whose extraction raises is caught and
contributes zero questions, the remaining chunks are still processed, and
the document's merged output consists of exactly what the non-raising
chunks returned: always up to ordering, and in exact ascending-chunk order
for documents of at most 9999 chunks (where the zero-padded file-name sort
is the identity on the in-order result list). -/
theorem claim_C9 {α : Type} (outs : List (ChunkOutcome α)) :
    (processWithChunking outs).Perm ((outs.map contribution).flatten) ∧
    (outs.length ≤ 9999 →
      processWithChunking outs = (outs.map contribution).flatten) := by
  constructor
  · show ((((List.insertionSort (fileLe (α := α)) (chunkLoop outs 1))).map
        Prod.snd).flatten).Perm _
    rw [← chunkLoop_flatten outs 1]
    exact ((List.perm_insertionSort _ _).map Prod.snd).flatten
  · intro h
    unfold processWithChunking mergeResults
    rw [List.Sorted.insertionSort_eq (chunkLoop_sorted outs 1 (by omega))]
    exact chunkLoop_flatten outs 1

/-- C9 witness: a middle chunk that raises contributes nothing; the other
two chunks' questions survive in order. -/
theorem claim_C9_witness :
    processWithChunking [ChunkOutcome.returns [1], ChunkOutcome.raises,
        ChunkOutcome.returns [2]] =
      (([ChunkOutcome.returns [1], ChunkOutcome.raises,
        ChunkOutcome.returns ([2] : List Nat)]).map contribution).flatten :=
  (claim_C9 _).2 (by decide)

/-- C7 counterexample: with 10000 chunks the `%04d` padding stops aligning
lexicographic and numeric order — the result file of chunk 10000 sorts
before that of chunk 2000 — so the merged list is not the ascending-index
concatenation. -/
theorem claim_C7_counterexample :
    mergeResults [(2000, [1]), (10000, [2])] ≠
      ((List.insertionSort (idxLe (α := Nat)) [(2000, [1]), (10000, [2])]).map
        Prod.snd).flatten := by
  decide

/-- C7 amended: as long as every chunk index stays below 10000 (where the
4-digit zero padding is injective and order-preserving), merging by sorted
result-file name equals concatenating the per-chunk results in ascending
chunk-index order, whatever order the results were produced in. -/
theorem claim_C7_amended {α : Type} (entries : List (Nat × List α))
    (h : ∀ e ∈ entries, e.1 < 10000) :
    mergeResults entries =
      ((List.insertionSort (idxLe (α := α)) entries).map Prod.snd).flatten := by
  unfold mergeResults
  have heq : List.insertionSort (fileLe (α := α)) entries =
      List.insertionSort (idxLe (α := α)) entries := by
    apply insertionSort_congr
    intro a ha b hb
    show (strLe (resultName a.1) (resultName b.1)) = true ↔ a.1 ≤ b.1
    exact resultName_le_iff a.1 b.1 (h a ha) (h b hb)
  rw [heq]

/-- C7 amended witness: two out-of-order small-index results merge in
ascending index order. -/
theorem claim_C7_witness :
    mergeResults [(2, [5]), (1, [7])] =
      ((List.insertionSort (idxLe (α := Nat)) [(2, [5]), (1, [7])]).map
        Prod.snd).flatten :=
  claim_C7_amended [(2, [5]), (1, [7])] (by decide)

end Pdf2Q
